import Mathlib

/-!
Verification of the claudible sound engine and activity monitor.

This file gives a shallow embedding, in Lean 4, of the parts of the
claudible repository that the verified properties are about:

* `src/claudible/monitor.py` — `ActivityMonitor.process_chunk`,
  `ActivityMonitor._maybe_trigger_grain` (newline-run chime logic and
  grain throttling).
* `src/claudible/audio.py` — `SoundEngine._token_hash`,
  `SoundEngine._snap_to_scale`, `SoundEngine.play_grain` (token-seeded
  selection, pentatonic quantisation, amplitude scaling),
  `SoundEngine._add_to_buffer` (ring-buffer mixing) and the final
  peak-normalisation step of `_generate_grain` / `play_chime` /
  `play_attention`.

Python floats are modelled as rationals (the properties proved are exact
order/arithmetic facts that hold in exact arithmetic), byte strings by
their lossily UTF-8-decoded character sequences (`errors='replace'`
decoding yields the empty text exactly for the empty byte string, so the
`if not data` guard coincides with an emptiness test on the decoded
text), wall-clock readings (`time.time()`) by explicit rational
timestamps, and numpy random sources by abstract draw functions
constrained to the requested ranges.
-/

namespace Claudible

/-! ## Activity monitor (`src/claudible/monitor.py`) -/

/-- Monitor events dispatched to the sound engine: the three zero-payload
triggers wired from `ActivityMonitor` to `SoundEngine`. -/
inductive Event where
  | grain : Event
  | chime : Event
  | attention : Event
deriving DecidableEq

/-- The mutable state of `ActivityMonitor` touched by `process_chunk` and
`_maybe_trigger_grain` (forward mode): `_last_grain_time`,
`_consecutive_newlines`, `_last_activity_time`, `_attention_triggered`. -/
structure MonitorState where
  lastGrainTime : ℚ
  consecutiveNewlines : Nat
  lastActivityTime : ℚ
  attentionTriggered : Bool
deriving DecidableEq

/-- Constant `ActivityMonitor.MAX_GRAINS_PER_SEC = 30`. -/
def MAX_GRAINS_PER_SEC : Nat := 30

/-- Constant `ActivityMonitor.NEWLINE_THRESHOLD = 3`. -/
def NEWLINE_THRESHOLD : Nat := 3

/-- Field `self._min_grain_interval = 1.0 / self.MAX_GRAINS_PER_SEC`. -/
def minGrainInterval : ℚ := 1 / (MAX_GRAINS_PER_SEC : ℚ)

/-- Method `ActivityMonitor._maybe_trigger_grain`, with `time.time()` passed in
explicitly: given the stored `_last_grain_time` and the current time,
returns the new `_last_grain_time` and whether `on_grain` was fired.
Mirrors monitor.py lines 114–119. -/
def maybeTriggerGrain (lastGrainTime now : ℚ) : ℚ × Bool :=
  if minGrainInterval ≤ now - lastGrainTime then (now, true) else (lastGrainTime, false)

/-- The sequence of timestamps at which `on_grain` actually fires when
`_maybe_trigger_grain` is called at each timestamp of `calls` in order,
starting from a given `_last_grain_time`. -/
def firedTimes (lastGrainTime : ℚ) : List ℚ → List ℚ
  | [] => []
  | t :: calls =>
      let r := maybeTriggerGrain lastGrainTime t
      if r.2 then t :: firedTimes r.1 calls else firedTimes r.1 calls

/-- One iteration of the `for char in text` loop of
`ActivityMonitor.process_chunk` (monitor.py lines 104–112), with the
`time.time()` reading made inside `_maybe_trigger_grain` passed in as
`now`.  Returns the new state and the events fired for this character. -/
def processChar (now : ℚ) (s : MonitorState) (c : Char) : MonitorState × List Event :=
  if c = '\n' then
    let k := s.consecutiveNewlines + 1
    if NEWLINE_THRESHOLD ≤ k then
      ({ s with consecutiveNewlines := 0 }, [Event.chime])
    else
      ({ s with consecutiveNewlines := k }, [])
  else
    let s1 := { s with consecutiveNewlines := 0 }
    let r := maybeTriggerGrain s1.lastGrainTime now
    (if r.2 then ({ s1 with lastGrainTime := r.1 }, [Event.grain])
     else ({ s1 with lastGrainTime := r.1 }, []))

/-- The whole `for char in text` loop: each character paired with the
clock reading current when it is processed. -/
def processChars (s : MonitorState) : List (ℚ × Char) → MonitorState × List Event
  | [] => (s, [])
  | p :: rest =>
      let r := processChar p.1 s p.2
      let r2 := processChars r.1 rest
      (r2.1, r.2 ++ r2.2)

/-- Method `ActivityMonitor.process_chunk` in forward mode (monitor.py lines
85–112).  `text` is the lossily decoded chunk, each character paired with
a timestamp; `now0` is the `time.time()` reading used to stamp
`_last_activity_time`.  The empty-chunk guard `if not data: return`
corresponds to `text = []` since lossy UTF-8 decoding is empty exactly on
the empty byte string. -/
def processChunk (now0 : ℚ) (text : List (ℚ × Char)) (s : MonitorState) :
    MonitorState × List Event :=
  if text = [] then (s, [])
  else
    processChars
      { s with lastActivityTime := now0, attentionTriggered := false } text

/-! ## Token hash (`SoundEngine._token_hash`, audio.py lines 292–298) -/

/-- Method `SoundEngine._token_hash`: djb2-style rolling hash,
`h = 5381; for c in token: h = ((h * 33) XOR ord(c)) AND 0xFFFFFFFF`.
The 32-bit mask `AND 0xFFFFFFFF` is written `% 2 ^ 32`. -/
def tokenHash (token : String) : Nat :=
  token.data.foldl (fun h c => ((h * 33) ^^^ c.toNat) % 2 ^ 32) 5381

/-- Modelled from the spec: the rolling hash exactly as the spec words it,
written as explicit recursion over the characters in order
(`h=5381; for each character c: h = ((h*33) XOR codepoint(c)) AND
0xFFFFFFFF`). -/
def specDjb2 : Nat → List Char → Nat
  | h, [] => h
  | h, c :: cs => specDjb2 (((h * 33) ^^^ c.toNat) % 2 ^ 32) cs

/-- The spec's hash applied to a token. -/
def specTokenHash (token : String) : Nat :=
  specDjb2 5381 token.data

/-! ## Pentatonic quantisation (`SoundEngine._snap_to_scale`,
audio.py lines 300–308) -/

/-- Constant `SoundEngine._SCALE_DEGREES = [0, 3, 5, 7, 10]`. -/
def SCALE_DEGREES : List ℚ := [0, 3, 5, 7, 10]

/-- Python's `min(iterable, key=key)` with a given first element `x` as
initial best: keeps the current best and replaces it only on a strictly
smaller key, so ties resolve to the earliest element. -/
def pyMinBy (key : ℚ → ℚ) (x : ℚ) (l : List ℚ) : ℚ :=
  l.foldl (fun best d => if key d < key best then d else best) x

/-- Expression `min(self._SCALE_DEGREES, key=lambda d: abs(d - remainder))`:
`SCALE_DEGREES` is `0 :: [3, 5, 7, 10]`, so Python's `min` starts with
best `0` and folds over the remaining degrees. -/
def nearestDegree (remainder : ℚ) : ℚ :=
  pyMinBy (fun d => |d - remainder|) 0 [3, 5, 7, 10]

/-- Method `SoundEngine._snap_to_scale`: `octave = int(semitones // 12)` (floor),
`remainder = semitones % 12` (Python float `%` with positive divisor,
i.e. `s - 12 * floor(s / 12)`), result `octave * 12 + nearest`. -/
def snapToScale (s : ℚ) : ℚ :=
  let octave : ℤ := ⌊s / 12⌋
  let remainder : ℚ := s - 12 * (octave : ℚ)
  (octave : ℚ) * 12 + nearestDegree remainder

/-! ## Sound engine playback (`SoundEngine.play_grain`,
audio.py lines 310–348) -/

/-- Abstract model of a seeded `np.random.RandomState(h)` as used in the
token branch of `play_grain`: its three successive draws —
`randint(len(cache))`, `uniform(-1.5, 1.5)`, `uniform(0.7, 1.0)` — are
pure functions of the seed (numpy's generator is a fixed deterministic
algorithm), each constrained to the requested range. -/
structure RandomState where
  randint : Nat → Nat → Nat
  uniform2 : Nat → ℚ → ℚ → ℚ
  uniform3 : Nat → ℚ → ℚ → ℚ
  randint_lt : ∀ seed n, 0 < n → randint seed n < n
  uniform2_mem : ∀ seed a b, a ≤ b → a ≤ uniform2 seed a b ∧ uniform2 seed a b ≤ b
  uniform3_mem : ∀ seed a b, a ≤ b → a ≤ uniform3 seed a b ∧ uniform3 seed a b ≤ b

/-- Abstract model of the shared unseeded source `np.random` used when no
token is given: an ambient stream of draws indexed by a position counter
(part of the engine state), each constrained to the requested range. -/
structure AmbientRandom where
  randint : Nat → Nat → Nat
  uniform : Nat → ℚ → ℚ → ℚ
  randint_lt : ∀ k n, 0 < n → randint k n < n
  uniform_mem : ∀ k a b, a ≤ b → a ≤ uniform k a b ∧ uniform k a b ≤ b

/-- The engine state touched by `play_grain`: the grain cache built at
construction (`_build_grain_cache`), the unused round-robin index
`_cache_index` (set to 0 in `__init__` and never consulted or updated
afterwards), the portamento tracker `_last_pitch` (the code stores the
ratio `2 ^ (s / 12)`; the state here records the snapped semitone `s`,
an injective image of the stored ratio), and the position reached in the
shared unseeded random stream. -/
structure EngineState where
  grainCache : List (List ℚ)
  cacheIndex : Nat
  lastPitch : ℚ
  ambientK : Nat
deriving DecidableEq

/-- Lower endpoint of the interval passed to `rng.uniform` for the
amplitude factor: audio.py line 346 reads `grain *= rng.uniform(0.7, 1.0)`. -/
def grainAmpLo : ℚ := 7 / 10

/-- Upper endpoint of the amplitude-factor interval at audio.py line 346. -/
def grainAmpHi : ℚ := 1

/-- The observable outcome of one `play_grain` call: the selected cache
index, the pentatonic-quantised semitone offset (the code converts it to
the pitch ratio `2 ^ (snapped / 12)`), and the amplitude factor. -/
structure GrainObs where
  idx : Nat
  snapped : ℚ
  amp : ℚ
deriving DecidableEq

/-- Method `SoundEngine.play_grain` (audio.py lines 310–348), restricted to its
selection observables and state effect.  A non-empty token seeds a
private `RandomState` from `_token_hash(token)`; an empty token draws
from the shared unseeded source, advancing the ambient position by the
three draws made.  The selected grain is copied for playback, so the
cache itself is left untouched by both branches. -/
def playGrain (M : RandomState) (G : AmbientRandom) (st : EngineState)
    (token : String) : EngineState × GrainObs :=
  if token = "" then
    let idx := G.randint st.ambientK st.grainCache.length
    let rawSemi := G.uniform (st.ambientK + 1) (-(3 / 2)) (3 / 2)
    let snapped := snapToScale rawSemi
    let amp := G.uniform (st.ambientK + 2) grainAmpLo grainAmpHi
    ({ st with lastPitch := snapped, ambientK := st.ambientK + 3 },
     ⟨idx, snapped, amp⟩)
  else
    let h := tokenHash token
    let idx := M.randint h st.grainCache.length
    let rawSemi := M.uniform2 h (-(3 / 2)) (3 / 2)
    let snapped := snapToScale rawSemi
    let amp := M.uniform3 h grainAmpLo grainAmpHi
    ({ st with lastPitch := snapped }, ⟨idx, snapped, amp⟩)

/-! ## Peak normalisation (audio.py lines 286–290, 383–387, 422–426) -/

/-- Expression `np.max(np.abs(w))` over the samples of a waveform (0 for the empty
waveform; every synthesised waveform in the code is non-empty). -/
def peakOf (w : List ℚ) : ℚ :=
  w.foldr (fun x m => max |x| m) 0

/-- The shared normalisation step: `peak = np.max(np.abs(out));
if peak > 0: out = out / peak * ceiling * m.volume`, with `ceiling` the
per-category constant. -/
def normalizeStep (ceiling vol : ℚ) (w : List ℚ) : List ℚ :=
  let peak := peakOf w
  if 0 < peak then w.map (fun x => x / peak * ceiling * vol) else w

/-- Final normalisation of `_generate_grain` (audio.py lines 286–288):
ceiling `0.4`, applied to the synthesised signal `out`. -/
def grainNormalize (vol : ℚ) (w : List ℚ) : List ℚ :=
  normalizeStep (2 / 5) vol w

/-- Final normalisation of `play_chime` (audio.py lines 383–385):
ceiling `0.35`. -/
def chimeNormalize (vol : ℚ) (w : List ℚ) : List ℚ :=
  normalizeStep (7 / 20) vol w

/-- Final normalisation of `play_attention` (audio.py lines 422–424):
ceiling `0.3`. -/
def attentionNormalize (vol : ℚ) (w : List ℚ) : List ℚ :=
  normalizeStep (3 / 10) vol w

/-! ## Ring buffer (`SoundEngine._add_to_buffer`, audio.py lines 161–166) -/

/-- Constant `SoundEngine.BUFFER_SIZE = 44100 * 2`. -/
def BUFFER_SIZE : Nat := 44100 * 2

/-- One iteration of the `for i, sample in enumerate(samples)` loop:
`self._buffer[(self._read_pos + i) % self.BUFFER_SIZE] += sample`.  The
buffer is modelled as a function from slot numbers to samples; `pos` is
already `read_pos + i`. -/
def writeSample (buf : Nat → ℚ) (pos : Nat) (x : ℚ) : Nat → ℚ :=
  fun j => if j = pos % BUFFER_SIZE then buf j + x else buf j

/-- Method `SoundEngine._add_to_buffer`: mix `samples` into the ring buffer
starting at the read cursor, sample `i` landing in slot
`(readPos + i) % BUFFER_SIZE`.  The read cursor itself is not moved. -/
def addToBuffer (readPos : Nat) (samples : List ℚ) (buf : Nat → ℚ) : Nat → ℚ :=
  match samples with
  | [] => buf
  | x :: rest => addToBuffer (readPos + 1) rest (writeSample buf readPos x)

/-- The total contribution a call `addToBuffer readPos samples` makes to
slot `j`: the sum of the samples whose target slot
`(readPos + i) % BUFFER_SIZE` equals `j`. -/
def bufContrib (readPos : Nat) (samples : List ℚ) (j : Nat) : ℚ :=
  match samples with
  | [] => 0
  | x :: rest =>
      (if j = readPos % BUFFER_SIZE then x else 0) + bufContrib (readPos + 1) rest j

/-! ## Concrete sample values used to instantiate the theorems -/

/-- A monitor state with zeroed counters, as after construction. -/
def mon0 : MonitorState :=
  ⟨0, 0, 0, false⟩

/-- A concrete admissible `RandomState` model: `randint` always picks
index 0 and each `uniform` returns the lower endpoint. -/
def rsConst : RandomState where
  randint := fun _ _ => 0
  uniform2 := fun _ a _ => a
  uniform3 := fun _ a _ => a
  randint_lt := fun _ _ h => h
  uniform2_mem := fun _ a _ h => ⟨le_refl a, h⟩
  uniform3_mem := fun _ a _ h => ⟨le_refl a, h⟩

/-- A concrete admissible ambient-randomness model. -/
def ambConst : AmbientRandom where
  randint := fun _ _ => 0
  uniform := fun _ a _ => a
  randint_lt := fun _ _ h => h
  uniform_mem := fun _ a _ h => ⟨le_refl a, h⟩

/-- A concrete engine state with a one-grain cache. -/
def st0 : EngineState :=
  ⟨[[1]], 0, 0, 0⟩

/-- An engine state with the same grain cache as `st0` but a different
portamento tracker and a different ambient-stream position, as after a
process restart. -/
def st1 : EngineState :=
  ⟨[[1]], 0, 5, 7⟩

/-! ## Helper lemmas -/

lemma specDjb2_eq_foldl (cs : List Char) : ∀ h : Nat,
    specDjb2 h cs = cs.foldl (fun h c => ((h * 33) ^^^ c.toNat) % 2 ^ 32) h := by
  induction cs with
  | nil => intro h; rfl
  | cons c cs ih => intro h; simp only [specDjb2, List.foldl_cons]; exact ih _

lemma foldl_hash_lt (cs : List Char) : ∀ h : Nat, h < 2 ^ 32 →
    cs.foldl (fun h c => ((h * 33) ^^^ c.toNat) % 2 ^ 32) h < 2 ^ 32 := by
  induction cs with
  | nil => intro h hh; exact hh
  | cons c cs ih =>
      intro h _
      exact ih _ (Nat.mod_lt _ (by norm_num))

lemma pyMinBy_mem_and_min (key : ℚ → ℚ) (l : List ℚ) : ∀ x : ℚ,
    pyMinBy key x l ∈ x :: l ∧ key (pyMinBy key x l) ≤ key x ∧
      ∀ d ∈ l, key (pyMinBy key x l) ≤ key d := by
  induction l with
  | nil => intro x; simp [pyMinBy]
  | cons d ds ih =>
      intro x
      by_cases hk : key d < key x
      · have hstep : pyMinBy key x (d :: ds) = pyMinBy key d ds := by
          simp [pyMinBy, hk]
        obtain ⟨hmem, hlex, hall⟩ := ih d
        rw [hstep]
        refine ⟨?_, hlex.trans hk.le, ?_⟩
        · rcases List.mem_cons.1 hmem with h | h
          · simp [h]
          · simp [List.mem_cons, h]
        · intro e he
          rcases List.mem_cons.1 he with rfl | he
          · exact hlex
          · exact hall e he
      · have hstep : pyMinBy key x (d :: ds) = pyMinBy key x ds := by
          simp [pyMinBy, hk]
        obtain ⟨hmem, hlex, hall⟩ := ih x
        rw [hstep]
        refine ⟨?_, hlex, ?_⟩
        · rcases List.mem_cons.1 hmem with h | h
          · simp [h]
          · simp [List.mem_cons, h]
        · intro e he
          rcases List.mem_cons.1 he with rfl | he
          · exact hlex.trans (not_lt.1 hk)
          · exact hall e he

lemma peakOf_nonneg (w : List ℚ) : 0 ≤ peakOf w := by
  induction w with
  | nil => simp [peakOf]
  | cons x xs ih => simpa [peakOf] using Or.inr ih

lemma peakOf_le (w : List ℚ) (B : ℚ) (hB : 0 ≤ B)
    (h : ∀ x ∈ w, |x| ≤ B) : peakOf w ≤ B := by
  induction w with
  | nil => simpa [peakOf] using hB
  | cons x xs ih =>
      have hx : |x| ≤ B := h x (List.mem_cons_self x xs)
      have hxs : peakOf xs ≤ B := ih fun y hy => h y (List.mem_cons_of_mem x hy)
      simpa [peakOf] using max_le hx hxs

lemma mem_abs_le_peakOf (w : List ℚ) (x : ℚ) (hx : x ∈ w) : |x| ≤ peakOf w := by
  induction w with
  | nil => cases hx
  | cons y ys ih =>
      rcases List.mem_cons.1 hx with rfl | hx
      · simpa [peakOf] using le_max_left _ _
      · simpa [peakOf] using Or.inr (ih hx)

lemma normalizeStep_peak (c vol : ℚ) (hc : 0 ≤ c) (hv : 0 ≤ vol) (w : List ℚ) :
    peakOf (normalizeStep c vol w) ≤ c * vol := by
  have hcv : 0 ≤ c * vol := mul_nonneg hc hv
  unfold normalizeStep
  by_cases hp : 0 < peakOf w
  · rw [if_pos hp]
    refine peakOf_le _ _ hcv ?_
    intro y hy
    obtain ⟨x, hx, rfl⟩ := List.mem_map.1 hy
    have hxp : |x| ≤ peakOf w := mem_abs_le_peakOf w x hx
    have h1 : |x / peakOf w * c * vol| = |x| / peakOf w * c * vol := by
      rw [abs_mul, abs_mul, abs_div, abs_of_nonneg hc, abs_of_nonneg hv,
        abs_of_pos hp]
    rw [h1]
    have h2 : |x| / peakOf w ≤ 1 := (div_le_one hp).2 hxp
    calc |x| / peakOf w * c * vol ≤ 1 * c * vol := by
          have := mul_le_mul_of_nonneg_right
            (mul_le_mul_of_nonneg_right h2 hc) hv
          simpa using this
      _ = c * vol := by ring
  · rw [if_neg hp]
    have : peakOf w = 0 := le_antisymm (not_lt.1 hp) (peakOf_nonneg w)
    rw [this]; exact hcv

lemma normalizeStep_zero (c vol : ℚ) (w : List ℚ) (h : peakOf w = 0) :
    normalizeStep c vol w = w := by
  unfold normalizeStep
  rw [h]
  simp

lemma addToBuffer_apply (samples : List ℚ) : ∀ (rp : Nat) (buf : Nat → ℚ) (j : Nat),
    addToBuffer rp samples buf j = buf j + bufContrib rp samples j := by
  induction samples with
  | nil => intro rp buf j; simp [addToBuffer, bufContrib]
  | cons x rest ih =>
      intro rp buf j
      show addToBuffer (rp + 1) rest (writeSample buf rp x) j = _
      rw [ih (rp + 1) (writeSample buf rp x) j]
      have hcontrib : bufContrib rp (x :: rest) j
          = (if j = rp % BUFFER_SIZE then x else 0) + bufContrib (rp + 1) rest j := rfl
      rw [hcontrib]
      unfold writeSample
      by_cases hj : j = rp % BUFFER_SIZE
      · rw [if_pos hj, if_pos hj]; ring
      · rw [if_neg hj, if_neg hj]; ring

/-! ## Claim theorems -/

/-- Claim C5: for every token string, `_token_hash` computes the
djb2-style rolling hash `h = 5381`, then for each character `c` in
order `h = ((h * 33) XOR codepoint(c))` masked to 32 bits, as the spec
words it; the result is always below `2 ^ 32`. -/
theorem tokenHash_djb2_C5 :
    (∀ token : String, tokenHash token = specTokenHash token)
      ∧ ∀ token : String, tokenHash token < 2 ^ 32 := by
  constructor
  · intro token
    rw [tokenHash, specTokenHash, specDjb2_eq_foldl]
  · intro token
    exact foldl_hash_lt token.data 5381 (by norm_num)

/-- Claim C10: calling `process_chunk` with an empty chunk leaves the
whole monitor state unchanged (the activity timestamp is not stamped,
the attention flag is not cleared, the newline counter is untouched)
and fires no Grain, Chime or Attention event.  The empty byte string
decodes to the empty text, triggering the `if not data: return` guard. -/
theorem processChunk_empty_frame_C10 :
    ∀ (now0 : ℚ) (s : MonitorState), processChunk now0 [] s = (s, []) := by
  intro now0 s
  rfl

/-- Claim C4: for every volume and every synthesised waveform, the peak
absolute amplitude after the final normalisation step is at most
`ceiling * volume`, where the ceiling is `0.4` for grains (`0.4 = 2/5`),
`0.35` for chimes (`7/20`) and `0.3` for attention tones (`3/10`); and
when the pre-normalisation peak is zero the step is skipped, leaving the
silent waveform unchanged. -/
theorem normalizePeak_C4 : ∀ (vol : ℚ) (w : List ℚ), 0 ≤ vol →
    (peakOf (grainNormalize vol w) ≤ 2 / 5 * vol
      ∧ peakOf (chimeNormalize vol w) ≤ 7 / 20 * vol
      ∧ peakOf (attentionNormalize vol w) ≤ 3 / 10 * vol)
    ∧ (peakOf w = 0 →
        grainNormalize vol w = w ∧ chimeNormalize vol w = w
          ∧ attentionNormalize vol w = w) := by
  intro vol w hv
  refine ⟨⟨?_, ?_, ?_⟩, fun hz => ⟨?_, ?_, ?_⟩⟩
  · exact normalizeStep_peak _ _ (by norm_num) hv w
  · exact normalizeStep_peak _ _ (by norm_num) hv w
  · exact normalizeStep_peak _ _ (by norm_num) hv w
  · exact normalizeStep_zero _ _ _ hz
  · exact normalizeStep_zero _ _ _ hz
  · exact normalizeStep_zero _ _ _ hz

lemma peakOf_singleton_zero : peakOf [0] = 0 := by
  simp [peakOf]

/-- Witness for C4 at `vol = 1`, `w = [0]` (which also has zero peak). -/
theorem normalizePeak_C4_witness :
    (peakOf (grainNormalize 1 [0]) ≤ 2 / 5 * 1
      ∧ peakOf (chimeNormalize 1 [0]) ≤ 7 / 20 * 1
      ∧ peakOf (attentionNormalize 1 [0]) ≤ 3 / 10 * 1)
    ∧ (grainNormalize 1 [0] = [0] ∧ chimeNormalize 1 [0] = [0]
        ∧ attentionNormalize 1 [0] = [0]) :=
  ⟨(normalizePeak_C4 1 [0] zero_le_one).1,
    (normalizePeak_C4 1 [0] zero_le_one).2 peakOf_singleton_zero⟩

/-- Claim C9: ring-buffer mixing is commutative and purely additive —
adding waveform `A` then `B` from the same cursor state gives the same
buffer as adding `B` then `A`; each call adds sample `i` into slot
`(readPos + i) % BUFFER_SIZE` on top of the existing content, never
overwriting (`bufContrib` unfolds slot-by-slot, head sample landing at
`readPos % BUFFER_SIZE`). -/
theorem addToBuffer_commutative_C9 :
    (∀ (rp : Nat) (A B : List ℚ) (buf : Nat → ℚ),
        addToBuffer rp A (addToBuffer rp B buf)
          = addToBuffer rp B (addToBuffer rp A buf))
    ∧ (∀ (rp : Nat) (samples : List ℚ) (buf : Nat → ℚ) (j : Nat),
        addToBuffer rp samples buf j = buf j + bufContrib rp samples j)
    ∧ ∀ (rp : Nat) (x : ℚ) (rest : List ℚ) (j : Nat),
        bufContrib rp (x :: rest) j
          = (if j = rp % BUFFER_SIZE then x else 0) + bufContrib (rp + 1) rest j := by
  refine ⟨?_, fun rp samples buf j => addToBuffer_apply samples rp buf j,
    fun _ _ _ _ => rfl⟩
  intro rp A B buf
  funext j
  rw [addToBuffer_apply, addToBuffer_apply, addToBuffer_apply, addToBuffer_apply]
  ring

lemma tokenA_ne_empty : ("a" : String) ≠ "" := by decide

/-- Claim C6: `_snap_to_scale` returns `12 * floor(s / 12) + d` where `d`
is a degree of the minor-pentatonic scale [0, 3, 5, 7, 10] at minimal
distance from the remainder `s mod 12` (Python's `min` resolves ties to
the earlier degree); and in the token branch of `play_grain` the snapped
value is exactly `_snap_to_scale` applied to the raw semitone offset
drawn by `rng.uniform(-1.5, 1.5)`, a draw lying in [-1.5, 1.5].  The
code then converts the snapped value `s` to the pitch ratio
`2 ^ (s / 12)`, a function of `s` alone. -/
theorem snapPentatonic_C6 :
    (∀ s : ℚ,
        snapToScale s = 12 * (⌊s / 12⌋ : ℚ)
            + nearestDegree (s - 12 * (⌊s / 12⌋ : ℚ))
          ∧ nearestDegree (s - 12 * (⌊s / 12⌋ : ℚ)) ∈ SCALE_DEGREES
          ∧ ∀ d ∈ SCALE_DEGREES,
              |nearestDegree (s - 12 * (⌊s / 12⌋ : ℚ)) - (s - 12 * (⌊s / 12⌋ : ℚ))|
                ≤ |d - (s - 12 * (⌊s / 12⌋ : ℚ))|)
    ∧ ∀ (M : RandomState) (G : AmbientRandom) (st : EngineState) (token : String),
        token ≠ "" →
          (playGrain M G st token).2.snapped
              = snapToScale (M.uniform2 (tokenHash token) (-(3 / 2)) (3 / 2))
            ∧ -(3 / 2) ≤ M.uniform2 (tokenHash token) (-(3 / 2)) (3 / 2)
            ∧ M.uniform2 (tokenHash token) (-(3 / 2)) (3 / 2) ≤ 3 / 2 := by
  constructor
  · intro s
    set r := s - 12 * (⌊s / 12⌋ : ℚ) with hr
    obtain ⟨hmem, hle0, hall⟩ :=
      pyMinBy_mem_and_min (fun d => |d - r|) [3, 5, 7, 10] 0
    refine ⟨by simp only [snapToScale, nearestDegree]; ring_nf, ?_, ?_⟩
    · show pyMinBy (fun d => |d - r|) 0 [3, 5, 7, 10] ∈ SCALE_DEGREES
      simpa [SCALE_DEGREES] using hmem
    · intro d hd
      show |pyMinBy (fun d => |d - r|) 0 [3, 5, 7, 10] - r| ≤ _
      rcases List.mem_cons.1 hd with rfl | hd
      · simpa using hle0
      · simpa using hall d hd
  · intro M G st token h
    have hmem := M.uniform2_mem (tokenHash token) (-(3 / 2)) (3 / 2) (by norm_num)
    simp only [playGrain, if_neg h]
    exact ⟨trivial, hmem.1, hmem.2⟩

/-- Witness for C6: the token branch at the concrete model `rsConst`,
state `st0` and token "a". -/
theorem snapPentatonic_C6_witness :
    (playGrain rsConst ambConst st0 "a").2.snapped
        = snapToScale (rsConst.uniform2 (tokenHash "a") (-(3 / 2)) (3 / 2))
      ∧ -(3 / 2) ≤ rsConst.uniform2 (tokenHash "a") (-(3 / 2)) (3 / 2)
      ∧ rsConst.uniform2 (tokenHash "a") (-(3 / 2)) (3 / 2) ≤ 3 / 2 :=
  snapPentatonic_C6.2 rsConst ambConst st0 "a" tokenA_ne_empty

/-- Claim C1: for a non-empty token, the selected cache index and the
pentatonic-quantised pitch of `play_grain` depend only on the token (via
the `_token_hash`-seeded `RandomState`) and the cache contents — any two
invocations with the same token and the same grain cache, under any
ambient randomness and any other engine state (e.g. across process
restarts), agree on both. -/
theorem playGrainDeterministic_C1 :
    ∀ (M : RandomState) (G G' : AmbientRandom) (st st' : EngineState)
      (token : String), token ≠ "" → st.grainCache = st'.grainCache →
        (playGrain M G st token).2.idx = (playGrain M G' st' token).2.idx
          ∧ (playGrain M G st token).2.snapped
              = (playGrain M G' st' token).2.snapped := by
  intro M G G' st st' token h hc
  simp only [playGrain, if_neg h]
  exact ⟨by rw [hc], trivial⟩

/-- Witness for C1: two engine states sharing a cache but differing in
portamento tracker and ambient-stream position, token "a". -/
theorem playGrainDeterministic_C1_witness :
    (playGrain rsConst ambConst st0 "a").2.idx
        = (playGrain rsConst ambConst st1 "a").2.idx
      ∧ (playGrain rsConst ambConst st0 "a").2.snapped
          = (playGrain rsConst ambConst st1 "a").2.snapped :=
  playGrainDeterministic_C1 rsConst ambConst ambConst st0 st1 "a"
    tokenA_ne_empty rfl

/-- Counterexample to C7 as stated: the interval handed to
`rng.uniform` for the amplitude factor at audio.py line 346 is
[0.7, 1.0], not [0.6, 1.0] — its lower endpoint is `0.7 ≠ 0.6`, and at a
model whose uniform draw returns the lower endpoint the factor is `0.7`,
below which no draw can fall. -/
theorem grainAmp_C7_counterexample :
    grainAmpLo = 7 / 10 ∧ (7 : ℚ) / 10 ≠ 3 / 5
      ∧ (playGrain rsConst ambConst st0 "x").2.amp = 7 / 10 := by
  have hx : ("x" : String) ≠ "" := by decide
  refine ⟨rfl, by norm_num, ?_⟩
  simp [playGrain, if_neg hx, rsConst, grainAmpLo]

/-- Claim C7 amended: on every `play_grain` invocation (token or not),
the amplitude factor is drawn uniformly from [0.7, 1.0]: the interval
endpoints passed to `rng.uniform` are exactly 0.7 and 1.0, and every
admissible draw lies within them. -/
theorem grainAmp_C7 :
    ∀ (M : RandomState) (G : AmbientRandom) (st : EngineState)
      (token : String),
      grainAmpLo = 7 / 10 ∧ grainAmpHi = 1
        ∧ grainAmpLo ≤ (playGrain M G st token).2.amp
        ∧ (playGrain M G st token).2.amp ≤ grainAmpHi := by
  intro M G st token
  have hlh : grainAmpLo ≤ grainAmpHi := by norm_num [grainAmpLo, grainAmpHi]
  refine ⟨rfl, rfl, ?_⟩
  by_cases h : token = ""
  · simp only [playGrain, if_pos h]
    exact G.uniform_mem _ _ _ hlh
  · simp only [playGrain, if_neg h]
    exact M.uniform3_mem _ _ _ hlh

/-- Counterexample to C8 as stated: a concrete `play_grain` invocation
(either branch) leaves the grain cache exactly as it was — no cache slot
is ever regenerated, so there is no nonzero per-invocation regeneration
probability. -/
theorem grainCache_C8_counterexample :
    (playGrain rsConst ambConst st0 "x").1.grainCache = st0.grainCache
      ∧ (playGrain rsConst ambConst st0 "").1.grainCache = st0.grainCache := by
  have hx : ("x" : String) ≠ "" := by decide
  constructor
  · simp [playGrain, if_neg hx]
  · simp [playGrain]

/-- Claim C8 amended: `play_grain` never regenerates any cache slot — the
grain cache built at construction is left unchanged by every invocation,
so cache contents never change over a session. -/
theorem grainCache_C8 :
    ∀ (M : RandomState) (G : AmbientRandom) (st : EngineState)
      (token : String),
      (playGrain M G st token).1.grainCache = st.grainCache := by
  intro M G st token
  by_cases h : token = "" <;> simp [playGrain, h]

lemma processChars_append : ∀ (l1 l2 : List (ℚ × Char)) (s : MonitorState),
    processChars s (l1 ++ l2)
      = ((processChars (processChars s l1).1 l2).1,
         (processChars s l1).2 ++ (processChars (processChars s l1).1 l2).2) := by
  intro l1
  induction l1 with
  | nil => intro l2 s; simp [processChars]
  | cons p rest ih =>
      intro l2 s
      simp only [List.cons_append, processChars, List.append_eq]
      rw [ih]
      simp [List.append_assoc]

lemma processChar_nonNewline (now : ℚ) (s : MonitorState) (c : Char)
    (hc : c ≠ '\n') :
    (processChar now s c).1.consecutiveNewlines = 0
      ∧ (processChar now s c).2.count Event.chime = 0 := by
  simp only [processChar, if_neg hc]
  split
  · exact ⟨rfl, by dsimp only; decide⟩
  · exact ⟨rfl, by dsimp only; decide⟩

lemma nlFree_count : ∀ (l : List (ℚ × Char)) (s : MonitorState),
    (∀ p ∈ l, p.2 ≠ '\n') →
      (processChars s l).2.count Event.chime = 0
        ∧ (s.consecutiveNewlines = 0 →
            (processChars s l).1.consecutiveNewlines = 0) := by
  intro l
  induction l with
  | nil => intro s _; exact ⟨by simp [processChars], fun h => h⟩
  | cons p rest ih =>
      intro s hl
      have hp : p.2 ≠ '\n' := hl p (List.mem_cons_self p rest)
      have hrest : ∀ q ∈ rest, q.2 ≠ '\n' :=
        fun q hq => hl q (List.mem_cons_of_mem p hq)
      obtain ⟨hcnt0, hchime0⟩ := processChar_nonNewline p.1 s p.2 hp
      obtain ⟨ihc, ihn⟩ := ih (processChar p.1 s p.2).1 hrest
      constructor
      · simp only [processChars]
        rw [List.count_append, hchime0, ihc]
      · intro _
        simp only [processChars]
        exact ihn hcnt0

lemma newlineRun : ∀ (l : List (ℚ × Char)) (s : MonitorState),
    (∀ p ∈ l, p.2 = '\n') → s.consecutiveNewlines < 3 →
      (processChars s l).1.consecutiveNewlines
          = (s.consecutiveNewlines + l.length) % 3
        ∧ (processChars s l).2.count Event.chime
            = (s.consecutiveNewlines + l.length) / 3 := by
  intro l
  induction l with
  | nil =>
      intro s _ h3
      constructor
      · simp only [processChars, List.length_nil]; omega
      · simp only [processChars, List.length_nil, List.count_nil]; omega
  | cons p rest ih =>
      intro s hl h3
      have hp : p.2 = '\n' := hl p (List.mem_cons_self p rest)
      have hrest : ∀ q ∈ rest, q.2 = '\n' :=
        fun q hq => hl q (List.mem_cons_of_mem p hq)
      by_cases hth : NEWLINE_THRESHOLD ≤ s.consecutiveNewlines + 1
      · have hstep : processChar p.1 s p.2
            = ({ s with consecutiveNewlines := 0 }, [Event.chime]) := by
          simp only [processChar]
          rw [if_pos hp, if_pos hth]
        have hc2 : s.consecutiveNewlines = 2 := by
          simp only [NEWLINE_THRESHOLD] at hth; omega
        obtain ⟨ihn, ihc⟩ := ih { s with consecutiveNewlines := 0 }
          hrest (by simp [NEWLINE_THRESHOLD])
        dsimp only at ihn ihc
        constructor
        · simp only [processChars, hstep, List.length_cons]
          rw [ihn]; simp only [hc2]; omega
        · simp only [processChars, hstep, List.length_cons]
          rw [List.count_append, ihc]
          simp only [hc2]
          have hone : ([Event.chime]).count Event.chime = 1 := by decide
          rw [hone]; omega
      · have hstep : processChar p.1 s p.2
            = ({ s with consecutiveNewlines := s.consecutiveNewlines + 1 }, []) := by
          simp only [processChar]
          rw [if_pos hp, if_neg hth]
        have hlt : s.consecutiveNewlines + 1 < 3 := by
          simp only [NEWLINE_THRESHOLD] at hth; omega
        obtain ⟨ihn, ihc⟩ := ih { s with consecutiveNewlines := s.consecutiveNewlines + 1 }
          hrest hlt
        dsimp only at ihn ihc
        constructor
        · simp only [processChars, hstep, List.length_cons]
          rw [ihn]; omega
        · simp only [processChars, hstep, List.length_cons]
          rw [List.count_append, ihc]
          have hz : ([] : List Event).count Event.chime = 0 := rfl
          rw [hz]; omega

lemma chunk_run_count : ∀ (a nls b : List (ℚ × Char)) (st1 : MonitorState),
    st1.consecutiveNewlines = 0 →
    (∀ p ∈ a, p.2 ≠ '\n') → (∀ p ∈ nls, p.2 = '\n') → (∀ p ∈ b, p.2 ≠ '\n') →
      (processChars st1 (a ++ nls ++ b)).2.count Event.chime = nls.length / 3
        ∧ (nls.length % 3 = 0 →
            (processChars st1 (a ++ nls ++ b)).1.consecutiveNewlines = 0) := by
  intro a nls b st1 h0 ha hnl hb
  obtain ⟨haC, haN⟩ := nlFree_count a st1 ha
  have hsAc : (processChars st1 a).1.consecutiveNewlines = 0 := haN h0
  obtain ⟨hnN, hnC⟩ := newlineRun nls (processChars st1 a).1 hnl
    (by rw [hsAc]; norm_num)
  obtain ⟨hbC, hbN⟩ :=
    nlFree_count b (processChars (processChars st1 a).1 nls).1 hb
  rw [List.append_assoc, processChars_append a (nls ++ b) st1,
    processChars_append nls b (processChars st1 a).1]
  dsimp only
  constructor
  · simp only [List.count_append]
    rw [haC, hnC, hbC, hsAc]
    simp
  · intro h3
    refine hbN ?_
    rw [hnN, hsAc]
    omega

/-- Claim C2: from a state with a zero newline-run counter, a chunk whose
decoded text is `a ++ nls ++ b` with `a`, `b` newline-free and `nls` a
run of newline characters fires Chime exactly once and resets the
counter to 0 when the run has length 3; a run of length 4 (a fourth
consecutive newline with no intervening non-newline) still fires exactly
one Chime; a second Chime comes only once three more newlines have
accumulated (run length 6 fires exactly two). -/
theorem newlineChime_C2 :
    ∀ (now0 : ℚ) (a nls b : List (ℚ × Char)) (s : MonitorState),
      s.consecutiveNewlines = 0 →
      (∀ p ∈ a, p.2 ≠ '\n') → (∀ p ∈ nls, p.2 = '\n') →
      (∀ p ∈ b, p.2 ≠ '\n') →
      (nls.length = 3 →
        (processChunk now0 (a ++ nls ++ b) s).2.count Event.chime = 1
          ∧ (processChunk now0 (a ++ nls ++ b) s).1.consecutiveNewlines = 0)
      ∧ (nls.length = 4 →
          (processChunk now0 (a ++ nls ++ b) s).2.count Event.chime = 1)
      ∧ (nls.length = 6 →
          (processChunk now0 (a ++ nls ++ b) s).2.count Event.chime = 2) := by
  intro now0 a nls b s hs ha hnl hb
  have hch : nls ≠ [] →
      processChunk now0 (a ++ nls ++ b) s
        = processChars
            { s with lastActivityTime := now0, attentionTriggered := false }
            (a ++ nls ++ b) := by
    intro hnls
    have hne : ¬(a ++ nls ++ b = []) := by simp [hnls]
    simp only [processChunk, if_neg hne]
  have hkey := chunk_run_count a nls b
    { s with lastActivityTime := now0, attentionTriggered := false }
    hs ha hnl hb
  refine ⟨fun h3 => ?_, fun h4 => ?_, fun h6 => ?_⟩
  · rw [hch (List.length_pos.1 (by rw [h3]; norm_num))]
    exact ⟨by rw [hkey.1, h3], hkey.2 (by rw [h3])⟩
  · rw [hch (List.length_pos.1 (by rw [h4]; norm_num))]
    rw [hkey.1, h4]
  · rw [hch (List.length_pos.1 (by rw [h6]; norm_num))]
    rw [hkey.1, h6]

/-- Witness for C2: chunk text "x" followed by three newlines, from a
fresh monitor state. -/
theorem newlineChime_C2_witness :
    (processChunk 0
        ([((0 : ℚ), 'x')]
          ++ [((0 : ℚ), '\n'), ((0 : ℚ), '\n'), ((0 : ℚ), '\n')] ++ [])
        mon0).2.count Event.chime = 1
      ∧ (processChunk 0
          ([((0 : ℚ), 'x')]
            ++ [((0 : ℚ), '\n'), ((0 : ℚ), '\n'), ((0 : ℚ), '\n')] ++ [])
          mon0).1.consecutiveNewlines = 0 :=
  (newlineChime_C2 0 [((0 : ℚ), 'x')]
    [((0 : ℚ), '\n'), ((0 : ℚ), '\n'), ((0 : ℚ), '\n')] [] mon0
    rfl (by decide) (by decide) (by decide)).1 rfl

/-! ## Grain throttling (claim C3) -/

/-- Two fire times separated by at least the minimum grain interval. -/
def spacedBy (a b : ℚ) : Prop :=
  a + minGrainInterval ≤ b

lemma minGrainInterval_pos : 0 < minGrainInterval := by
  norm_num [minGrainInterval, MAX_GRAINS_PER_SEC]

lemma spacedBy_trans : ∀ a b c : ℚ, spacedBy a b → spacedBy b c → spacedBy a c := by
  intro a b c hab hbc
  have hd : 0 < minGrainInterval := minGrainInterval_pos
  unfold spacedBy at *
  linarith

lemma firedTimes_cons_pos (s t : ℚ) (calls : List ℚ)
    (h : minGrainInterval ≤ t - s) :
    firedTimes s (t :: calls) = t :: firedTimes t calls := by
  simp [firedTimes, maybeTriggerGrain, h]

lemma firedTimes_cons_neg (s t : ℚ) (calls : List ℚ)
    (h : ¬minGrainInterval ≤ t - s) :
    firedTimes s (t :: calls) = firedTimes s calls := by
  simp [firedTimes, maybeTriggerGrain, h]

lemma firedTimes_chain : ∀ (calls : List ℚ) (s : ℚ),
    List.Chain' spacedBy (s :: firedTimes s calls) := by
  intro calls
  induction calls with
  | nil => intro s; simp [firedTimes]
  | cons t ts ih =>
      intro s
      by_cases h : minGrainInterval ≤ t - s
      · rw [firedTimes_cons_pos s t ts h]
        have hst : spacedBy s t := by unfold spacedBy; linarith
        exact List.chain'_cons.2 ⟨hst, ih t⟩
      · rw [firedTimes_cons_neg s t ts h]
        exact ih s

lemma chain_spaced_last : ∀ (l : List ℚ) (a : ℚ),
    List.Chain' spacedBy (a :: l) →
      ∃ z ∈ a :: l, a + l.length * minGrainInterval ≤ z := by
  intro l
  induction l with
  | nil =>
      intro a _
      exact ⟨a, List.mem_cons_self a [], by simp⟩
  | cons b bs ih =>
      intro a hchain
      obtain ⟨hab, hrest⟩ := List.chain'_cons.1 hchain
      obtain ⟨z, hz, hge⟩ := ih b hrest
      refine ⟨z, List.mem_cons_of_mem a hz, ?_⟩
      have hd : 0 < minGrainInterval := minGrainInterval_pos
      unfold spacedBy at hab
      have hcast : ((b :: bs).length : ℚ) = (bs.length : ℚ) + 1 := by
        push_cast [List.length_cons]
        ring
      rw [hcast]
      linarith

lemma firedTimes_window : ∀ (s T : ℚ) (calls : List ℚ),
    ((firedTimes s calls).filter
        (fun t => decide (T ≤ t ∧ t < T + 1))).length ≤ 30 := by
  intro s T calls
  haveI : IsTrans ℚ spacedBy := ⟨spacedBy_trans⟩
  have hchain : List.Chain' spacedBy (firedTimes s calls) :=
    (firedTimes_chain calls s).tail
  have hsub : List.Sublist
      ((firedTimes s calls).filter (fun t => decide (T ≤ t ∧ t < T + 1)))
      (firedTimes s calls) :=
    List.filter_sublist _
  have hchainF := hchain.sublist hsub
  set f := (firedTimes s calls).filter (fun t => decide (T ≤ t ∧ t < T + 1))
    with hf
  have hmemF : ∀ x ∈ f, T ≤ x ∧ x < T + 1 := by
    intro x hx
    have := List.of_mem_filter hx
    simpa using this
  cases hcases : f with
  | nil => simp
  | cons b rest =>
      obtain ⟨z, hz, hge⟩ := chain_spaced_last rest b (hcases ▸ hchainF)
      have hbT : T ≤ b := (hmemF b (hcases ▸ List.mem_cons_self b rest)).1
      have hzT : z < T + 1 := (hmemF z (hcases ▸ hz)).2
      have hlen : (rest.length : ℚ) * minGrainInterval < 1 := by linarith
      have hint : (rest.length : ℚ) * minGrainInterval
          = (rest.length : ℚ) / 30 := by
        rw [minGrainInterval, MAX_GRAINS_PER_SEC]
        push_cast
        ring
      rw [hint] at hlen
      have hq : (rest.length : ℚ) < 30 := by linarith
      have hn : rest.length < 30 := by exact_mod_cast hq
      simp only [List.length_cons]
      omega

lemma firedTimes_none : ∀ (calls : List ℚ) (g : ℚ),
    (∀ t ∈ calls, t - g < minGrainInterval) → firedTimes g calls = [] := by
  intro calls
  induction calls with
  | nil => intro g _; rfl
  | cons t ts ih =>
      intro g hall
      have ht : t - g < minGrainInterval := hall t (List.mem_cons_self t ts)
      rw [firedTimes_cons_neg g t ts (by linarith)]
      exact ih g fun u hu => hall u (List.mem_cons_of_mem t hu)

/-- Claim C3: for any sequence of `_maybe_trigger_grain` calls at given
timestamps, (i) consecutive fired grains — and the first fired grain
relative to the stored `_last_grain_time` — are separated by at least
`1/30` second (non-qualifying calls are dropped silently, changing no
state); (ii) hence at most 30 grains fire in any half-open one-second
window; and (iii) a burst whose first call qualifies and whose remaining
calls all fall within a window shorter than `1/30` second after it fires
exactly once. -/
theorem grainThrottle_C3 :
    (∀ (s : ℚ) (calls : List ℚ),
        List.Chain' spacedBy (s :: firedTimes s calls))
    ∧ (∀ (s T : ℚ) (calls : List ℚ),
        ((firedTimes s calls).filter
            (fun t => decide (T ≤ t ∧ t < T + 1))).length ≤ 30)
    ∧ ∀ (s t0 : ℚ) (rest : List ℚ),
        minGrainInterval ≤ t0 - s →
        (∀ t ∈ rest, t0 ≤ t ∧ t - t0 < minGrainInterval) →
          firedTimes s (t0 :: rest) = [t0] := by
  refine ⟨fun s calls => firedTimes_chain calls s,
    firedTimes_window, ?_⟩
  intro s t0 rest h0 hrest
  rw [firedTimes_cons_pos s t0 rest h0]
  rw [firedTimes_none rest t0 fun t ht => (hrest t ht).2]

lemma burst_first_qualifies : minGrainInterval ≤ (1 : ℚ) - 0 := by
  norm_num [minGrainInterval, MAX_GRAINS_PER_SEC]

lemma burst_rest_within : ∀ t ∈ [(1 : ℚ)], (1 : ℚ) ≤ t ∧ t - 1 < minGrainInterval := by
  intro t ht
  have : t = 1 := by simpa using ht
  subst this
  norm_num [minGrainInterval, MAX_GRAINS_PER_SEC]

/-- Witness for C3: two calls at time 1 (the second within 1/30 s of the
first) from `_last_grain_time = 0` fire exactly once. -/
theorem grainThrottle_C3_witness :
    firedTimes 0 ((1 : ℚ) :: [(1 : ℚ)]) = [(1 : ℚ)] :=
  grainThrottle_C3.2.2 0 1 [(1 : ℚ)] burst_first_qualifies burst_rest_within

end Claudible
